import Mathlib

/-!
Verification development for the query-and-ranking core of the stract search
engine.  The definitions below are shallow embeddings of the Rust source:

* `TQuery`, `Occur`, `evalQ` — the operator tree built from tantivy's
  `BooleanQuery`/`Occur` together with stract's `ConstQuery`, `PatternQuery`
  and `UnionQuery`, with the standard boolean-occurrence matching semantics
  (all musts, no must-nots, and at least one should when no must is present;
  a union matches when at least one branch matches).
* `Matching.asTantivy`, `Rule.asSearchableRule`, `Optic.asMultipleTantivy` —
  the optic compiler from crates/core/src/query/optic.rs; the `Old`-suffixed
  versions embed the second compiler version at core/src/query/optic.rs.
* `dedupTerms` — the term-deduplication loop of `Query::parse`
  (crates/core/src/query/mod.rs).
* `mergeTantivySegments` — the bin-packed segment merge of
  crates/core/src/inverted_index.rs.
* `searchInitial`, `retrieveWebsites`, `deleteAllBefore`,
  `emptyQuerySnippet` — from crates/core/src/inverted_index.rs.

Text is modelled as `List Char`; machine counters are `Nat`/`Int`.
-/

namespace Stract

/-- Occurrence marker of a clause in a tantivy `BooleanQuery`. -/
inductive Occur where
  | must
  | should
  | mustNot
deriving DecidableEq, Repr

/-- The text fields of the index schema that the embedded code refers to. -/
inductive TextField where
  | title
  | cleanBody
  | url
  | site
  | urlForSiteOperator
  | domain
  | description
  | dmozDescription
  | microformatTags
  | flattenedSchemaOrgJson
  | insertionTimestamp
deriving DecidableEq, Repr

/-- A document, abstracted to which (pattern, field) pairs it matches.
`PatternQuery` itself lives in the external pattern module, so a document is
modelled by the outcome of every possible pattern match against it. -/
structure Doc where
  matchesPattern : List Char → TextField → Bool

/-- The compiled operator tree: `PatternQuery` leaves, `ConstQuery` wrappers
(score 1.0), stract's `UnionQuery`, and tantivy's `BooleanQuery` with its
occurrence-annotated clause list. -/
inductive TQuery where
  | patternQ (pattern : List Char) (field : TextField)
  | constQ (q : TQuery)
  | unionQ (qs : List TQuery)
  | boolQ (clauses : List (Occur × TQuery))

mutual

/-- Matching semantics of the operator tree against a document.  A
`BooleanQuery` matches when no must-not clause matches, and all must clauses
match (or, when there is no must clause, at least one should clause matches).
A `UnionQuery` matches when at least one branch matches. -/
def evalQ (d : Doc) : TQuery → Bool
  | .patternQ p f => d.matchesPattern p f
  | .constQ q => evalQ d q
  | .unionQ qs => evalAny d qs
  | .boolQ cls =>
      evalNoMustNot d cls &&
        (if cls.any (fun c => c.1 == Occur.must) then evalAllMust d cls
         else evalSomeShould d cls)

/-- Does at least one query of the list match the document. -/
def evalAny (d : Doc) : List TQuery → Bool
  | [] => false
  | q :: qs => evalQ d q || evalAny d qs

/-- Does no must-not clause of the list match the document. -/
def evalNoMustNot (d : Doc) : List (Occur × TQuery) → Bool
  | [] => true
  | c :: cls =>
      (if c.1 == Occur.mustNot then !evalQ d c.2 else true) && evalNoMustNot d cls

/-- Does every must clause of the list match the document. -/
def evalAllMust (d : Doc) : List (Occur × TQuery) → Bool
  | [] => true
  | c :: cls =>
      (if c.1 == Occur.must then evalQ d c.2 else true) && evalAllMust d cls

/-- Does at least one should clause of the list match the document. -/
def evalSomeShould (d : Doc) : List (Occur × TQuery) → Bool
  | [] => false
  | c :: cls => (c.1 == Occur.should && evalQ d c.2) || evalSomeShould d cls

end

/-- The actions an optic rule can carry (`optics::Action`); boosts are kept
as integers since no claim depends on fractional coefficients. -/
inductive Action where
  | boost (b : Int)
  | downrank (b : Int)
  | discard
deriving DecidableEq, Repr

/-- Mirrors the Rust `matches!(rule.action, Action::Discard)` test. -/
def Action.isDiscard : Action → Bool
  | .discard => true
  | _ => false

/-- Pattern locations of the current optic compiler
(crates/core/src/query/optic.rs). -/
inductive MatchLocation where
  | site
  | url
  | domain
  | title
  | description
  | content
  | schema
  | microformatTag
deriving DecidableEq, Repr

/-- A single matcher of a `Matches` block: a location and a raw pattern. -/
structure Matching where
  location : MatchLocation
  pattern : List Char

/-- `Matching::as_tantivy` of crates/core/src/query/optic.rs: each location
compiles to a const-wrapped pattern query on its target field; `Description`
compiles to the union over the two description fields. -/
def Matching.asTantivy (m : Matching) : TQuery :=
  match m.location with
  | .site => .constQ (.patternQ m.pattern .urlForSiteOperator)
  | .url => .constQ (.patternQ m.pattern .url)
  | .domain => .constQ (.patternQ m.pattern .domain)
  | .title => .constQ (.patternQ m.pattern .title)
  | .description =>
      .unionQ [.constQ (.patternQ m.pattern .description),
               .constQ (.patternQ m.pattern .dmozDescription)]
  | .content => .constQ (.patternQ m.pattern .cleanBody)
  | .microformatTag => .constQ (.patternQ m.pattern .microformatTags)
  | .schema => .constQ (.patternQ m.pattern .flattenedSchemaOrgJson)

/-- The query/boost pair produced for a searchable rule. -/
structure SearchableRule where
  query : TQuery
  boost : Int

/-- An optic rule of the current compiler: a list of `Matches` blocks (each a
conjunction of matchers, the blocks forming a disjunction) and an action. -/
structure Rule where
  matchBlocks : List (List Matching)
  action : Action

/-- The action dispatch at the end of `Rule::as_searchable_rule`: boosts and
downranks wrap the subquery in a `ConstQuery` and occur as should-clauses,
discard attaches the bare subquery as a must-not clause. -/
def Rule.attachAction (action : Action) (subquery : TQuery) :
    Option (Occur × SearchableRule) :=
  match action with
  | .boost b => some (Occur.should, ⟨TQuery.constQ subquery, b⟩)
  | .downrank b => some (Occur.should, ⟨TQuery.constQ subquery, -b⟩)
  | .discard => some (Occur.mustNot, ⟨subquery, 0⟩)

/-- `Rule::as_searchable_rule` of crates/core/src/query/optic.rs.  Every
`Matches` block becomes a must-conjunction (single matchers stay bare); empty
blocks are dropped, and a rule whose blocks all vanish is pruned (`none`). -/
def Rule.asSearchableRule (r : Rule) : Option (Occur × SearchableRule) :=
  let subqueries : List (Occur × TQuery) :=
    r.matchBlocks.filterMap (fun andRule =>
      match andRule.map (fun m => (Occur.must, m.asTantivy)) with
      | [] => none
      | [q] => some (Occur.should, q.2)
      | qs => some (Occur.should, TQuery.boolQ qs))
  match subqueries with
  | [] => none
  | [sq] => Rule.attachAction r.action sq.2
  | sqs => Rule.attachAction r.action (TQuery.boolQ sqs)

/-- Host preference lists (`optics::HostRankings`). -/
structure HostRankings where
  liked : List (List Char) := []
  disliked : List (List Char) := []
  blocked : List (List Char) := []

/-- Modelled from the spec: `HostRankings::rules()` lives in the external
optics crate (not under src/); per the spec, the blocked sites compile to a
`Discard` rule matching those sites. -/
def HostRankings.rules (h : HostRankings) : Rule :=
  { matchBlocks := h.blocked.map (fun s => [⟨MatchLocation.site, s⟩]),
    action := Action.discard }

/-- An optic program after parsing (`optics::Optic`), restricted to the
parts the compiler reads. -/
structure Optic where
  discardNonMatching : Bool
  rules : List Rule
  hostRankings : HostRankings

/-- The union block built in the `DiscardNonMatching` branch of
`Optic::as_multiple_tantivy`: the non-discard rules, each compiled and
wrapped as a one-clause boolean query, collected into a `UnionQuery`. -/
def Optic.mustMatchUnion (o : Optic) : TQuery :=
  TQuery.unionQ
    (((o.rules.filter (fun r => !r.action.isDiscard)).filterMap
        Rule.asSearchableRule).map
      (fun oc => TQuery.boolQ [(oc.1, oc.2.query)]))

/-- `Optic::as_multiple_tantivy` of crates/core/src/query/optic.rs.  With
`DiscardNonMatching`, the non-discard rules are collected into a single
must-occur `UnionQuery` block, while discard rules (and the host-rankings
rule) are attached at the outer level; without it, every rule contributes
its own clause. -/
def Optic.asMultipleTantivy (o : Optic) : List (Occur × TQuery) :=
  if o.discardNonMatching then
    (((o.rules.filter (fun r => r.action.isDiscard)) ++
        [o.hostRankings.rules]).filterMap Rule.asSearchableRule).map
        (fun oc => (oc.1, oc.2.query)) ++ [(Occur.must, o.mustMatchUnion)]
  else
    ((o.rules ++ [o.hostRankings.rules]).filterMap Rule.asSearchableRule).map
      (fun oc => (oc.1, oc.2.query))

/-- The glue in `Query::parse` (crates/core/src/query/mod.rs): for each optic
the current tree becomes a must clause and the optic's clauses are appended,
all inside a fresh `BooleanQuery`. -/
def applyOptic (base : TQuery) (o : Optic) : TQuery :=
  TQuery.boolQ ((Occur.must, base) :: o.asMultipleTantivy)

/-- A rule matches a document when it compiles to a searchable rule whose
query matches the document. -/
def Rule.matchesDoc (r : Rule) (d : Doc) : Bool :=
  match r.asSearchableRule with
  | some oc => evalQ d oc.2.query
  | none => false

/-- Pattern locations of the older optic compiler (core/src/query/optic.rs);
it has no `MicroformatTag` location. -/
inductive MatchLocationOld where
  | site
  | url
  | domain
  | title
  | description
  | content
  | schema
deriving DecidableEq, Repr

/-- A matcher of the older compiler. -/
structure MatchingOld where
  location : MatchLocationOld
  pattern : List Char

/-- `Matching::as_tantivy` of core/src/query/optic.rs: bare pattern queries
(no const wrapper), with `Site` targeting the `Site` field. -/
def MatchingOld.asTantivy (m : MatchingOld) : TQuery :=
  match m.location with
  | .site => .patternQ m.pattern .site
  | .url => .patternQ m.pattern .url
  | .domain => .patternQ m.pattern .domain
  | .title => .patternQ m.pattern .title
  | .description =>
      .unionQ [.patternQ m.pattern .description,
               .patternQ m.pattern .dmozDescription]
  | .content => .patternQ m.pattern .cleanBody
  | .schema => .patternQ m.pattern .flattenedSchemaOrgJson

/-- A rule of the older compiler: a flat list of matchers and an action. -/
structure RuleOld where
  matchList : List MatchingOld
  action : Action

/-- `Rule::as_searchable_rule` of core/src/query/optic.rs: the matchers form
a must-conjunction; a rule with no matchers is pruned (`none`). -/
def RuleOld.asSearchableRule (r : RuleOld) : Option (Occur × SearchableRule) :=
  match r.matchList.map (fun m => (Occur.must, m.asTantivy)) with
  | [] => none
  | [sq] => Rule.attachAction r.action sq.2
  | sqs => Rule.attachAction r.action (TQuery.boolQ sqs)

theorem evalAny_true_iff (d : Doc) (qs : List TQuery) :
    evalAny d qs = true ↔ ∃ q ∈ qs, evalQ d q = true := by
  induction qs with
  | nil => simp [evalAny]
  | cons q qs ih => simp [evalAny, ih, Bool.or_eq_true]

theorem evalNoMustNot_eq_false (d : Doc) (q : TQuery) (hq : evalQ d q = true) :
    ∀ cls : List (Occur × TQuery), (Occur.mustNot, q) ∈ cls →
      evalNoMustNot d cls = false := by
  intro cls
  induction cls with
  | nil => intro hmem; cases hmem
  | cons c cls ih =>
      intro hmem
      rcases List.mem_cons.mp hmem with h1 | h2
      · rw [← h1]; simp [evalNoMustNot, hq]
      · simp [evalNoMustNot, ih h2]

theorem evalAllMust_of_mem (d : Doc) (q : TQuery) :
    ∀ cls : List (Occur × TQuery), evalAllMust d cls = true →
      (Occur.must, q) ∈ cls → evalQ d q = true := by
  intro cls
  induction cls with
  | nil => intro _ hmem; cases hmem
  | cons c cls ih =>
      intro h hmem
      simp only [evalAllMust, Bool.and_eq_true] at h
      rcases List.mem_cons.mp hmem with h1 | h2
      · rw [← h1] at h; simpa using h.1
      · exact ih h.2 h2

theorem Rule.attachAction_isSome (a : Action) (q : TQuery) :
    ∃ p, Rule.attachAction a q = some p := by
  cases a <;> exact ⟨_, rfl⟩

theorem Rule.attachAction_discard_inv (a : Action) (q : TQuery)
    (p : Occur × SearchableRule) (h : Rule.attachAction a q = some p)
    (ha : a = Action.discard) : p.1 = Occur.mustNot ∧ p.2.query = q := by
  subst ha
  simp only [Rule.attachAction, Option.some.injEq] at h
  subst h
  exact ⟨rfl, rfl⟩

theorem Rule.attachAction_nonDiscard_inv (a : Action) (q : TQuery)
    (p : Occur × SearchableRule) (h : Rule.attachAction a q = some p)
    (ha : a.isDiscard = false) :
    p.1 = Occur.should ∧ p.2.query = TQuery.constQ q := by
  cases a with
  | discard => simp [Action.isDiscard] at ha
  | boost b =>
      simp only [Rule.attachAction, Option.some.injEq] at h
      subst h; exact ⟨rfl, rfl⟩
  | downrank b =>
      simp only [Rule.attachAction, Option.some.injEq] at h
      subst h; exact ⟨rfl, rfl⟩

theorem Rule.asSearchableRule_eq_attach (r : Rule) (p : Occur × SearchableRule)
    (h : r.asSearchableRule = some p) :
    ∃ q, Rule.attachAction r.action q = some p := by
  simp only [Rule.asSearchableRule] at h
  split at h
  · cases h
  · exact ⟨_, h⟩
  · exact ⟨_, h⟩

theorem Rule.matchesDoc_eq (r : Rule) (d : Doc) (p : Occur × SearchableRule)
    (h : r.asSearchableRule = some p) :
    r.matchesDoc d = evalQ d p.2.query := by
  simp [Rule.matchesDoc, h]

theorem Rule.discard_searchable (r : Rule) (p : Occur × SearchableRule)
    (h : r.asSearchableRule = some p) (ha : r.action = Action.discard) :
    p.1 = Occur.mustNot := by
  obtain ⟨q, hq⟩ := Rule.asSearchableRule_eq_attach r p h
  exact (Rule.attachAction_discard_inv r.action q p hq ha).1

theorem Optic.mustNot_mem_asMultipleTantivy (o : Optic)
    (hdm : o.discardNonMatching = true) (r : Rule) (hr : r ∈ o.rules)
    (ha : r.action = Action.discard) (p : Occur × SearchableRule)
    (hp : r.asSearchableRule = some p) :
    (Occur.mustNot, p.2.query) ∈ o.asMultipleTantivy := by
  have hocc : p.1 = Occur.mustNot := Rule.discard_searchable r p hp ha
  simp only [Optic.asMultipleTantivy, hdm, if_true]
  refine List.mem_append_left _ ?_
  refine List.mem_map.mpr ⟨p, ?_, by rw [hocc]⟩
  refine List.mem_filterMap.mpr ⟨r, ?_, hp⟩
  refine List.mem_append_left _ ?_
  exact List.mem_filter.mpr ⟨hr, by simp [ha, Action.isDiscard]⟩

theorem evalQ_boolQ_false_of_mustNot (d : Doc)
    (cls : List (Occur × TQuery)) (q : TQuery)
    (hmem : (Occur.mustNot, q) ∈ cls) (hq : evalQ d q = true) :
    evalQ d (TQuery.boolQ cls) = false := by
  simp [evalQ, evalNoMustNot_eq_false d q hq cls hmem]

/-- C1: with `DiscardNonMatching`, the compiled optic attaches every
searchable `Discard` rule as a must-not clause at the outer level and the
non-discard rules as one must-occur union block; consequently a document
matched by any discard rule is excluded from the compiled query no matter
which boost or downrank rules match it, and any document that does match the
compiled query matches at least one non-discard rule. -/
theorem optic_discard_dominates (o : Optic) (base : TQuery) (d : Doc)
    (hdm : o.discardNonMatching = true) :
    ((Occur.must, o.mustMatchUnion) ∈ o.asMultipleTantivy) ∧
    (∀ r ∈ o.rules, r.action = Action.discard →
      ∀ p, r.asSearchableRule = some p →
        p.1 = Occur.mustNot ∧ (Occur.mustNot, p.2.query) ∈ o.asMultipleTantivy) ∧
    (∀ r ∈ o.rules, r.action = Action.discard → r.matchesDoc d = true →
      evalQ d (applyOptic base o) = false) ∧
    (evalQ d (applyOptic base o) = true →
      ∃ r ∈ o.rules, r.action.isDiscard = false ∧ r.matchesDoc d = true) := by
  refine ⟨?_, ?_, ?_, ?_⟩
  · simp [Optic.asMultipleTantivy, hdm]
  · intro r hr ha p hp
    exact ⟨Rule.discard_searchable r p hp ha,
      Optic.mustNot_mem_asMultipleTantivy o hdm r hr ha p hp⟩
  · intro r hr ha hmatch
    rcases hsr : r.asSearchableRule with _ | p
    · simp [Rule.matchesDoc, hsr] at hmatch
    · have hq : evalQ d p.2.query = true := by
        rw [Rule.matchesDoc_eq r d p hsr] at hmatch; exact hmatch
      have hmem : (Occur.mustNot, p.2.query) ∈ o.asMultipleTantivy :=
        Optic.mustNot_mem_asMultipleTantivy o hdm r hr ha p hsr
      exact evalQ_boolQ_false_of_mustNot d _ p.2.query (List.mem_cons_of_mem _ hmem) hq
  · intro htrue
    have hblock : (Occur.must, o.mustMatchUnion) ∈
        ((Occur.must, base) :: o.asMultipleTantivy) := by
      exact List.mem_cons_of_mem _ (by simp [Optic.asMultipleTantivy, hdm])
    have hany : ((Occur.must, base) :: o.asMultipleTantivy).any
        (fun c => c.1 == Occur.must) = true := by
      simp [List.any_cons]
    simp only [applyOptic, evalQ, hany, if_true, Bool.and_eq_true] at htrue
    have hunion : evalQ d o.mustMatchUnion = true :=
      evalAllMust_of_mem d _ _ htrue.2 hblock
    simp only [Optic.mustMatchUnion, evalQ] at hunion
    rw [evalAny_true_iff] at hunion
    obtain ⟨w, hwmem, hw⟩ := hunion
    obtain ⟨oc, hocmem, hoc⟩ := List.mem_map.mp hwmem
    obtain ⟨r, hrmem, hrsr⟩ := List.mem_filterMap.mp hocmem
    have hrrules : r ∈ o.rules := (List.mem_filter.mp hrmem).1
    have hnd : r.action.isDiscard = false := by
      have := (List.mem_filter.mp hrmem).2
      simpa using this
    obtain ⟨q, hq⟩ := Rule.asSearchableRule_eq_attach r oc hrsr
    have hshould := Rule.attachAction_nonDiscard_inv r.action q oc hq hnd
    refine ⟨r, hrrules, hnd, ?_⟩
    rw [Rule.matchesDoc_eq r d oc hrsr]
    subst hoc
    rw [hshould.1] at hw
    simpa [evalQ, evalSomeShould, evalNoMustNot] using hw

/-- Concrete document matching every pattern, used to instantiate C1. -/
def witDoc : Doc := ⟨fun _ _ => true⟩

/-- Concrete discard rule used to instantiate C1. -/
def witRule : Rule := ⟨[[⟨MatchLocation.domain, ['b']⟩]], Action.discard⟩

/-- Concrete optic with `DiscardNonMatching` and one discard rule. -/
def witOptic : Optic := ⟨true, [witRule], ⟨[], [], []⟩⟩

theorem optic_discard_dominates_witness :
    evalQ witDoc (applyOptic (TQuery.unionQ []) witOptic) = false := by
  have h := optic_discard_dominates witOptic (TQuery.unionQ []) witDoc rfl
  exact h.2.2.1 witRule (by simp [witOptic]) rfl (by decide)

mutual

/-- All (pattern, field) leaves of an operator tree, left to right. -/
def patternLeaves : TQuery → List (List Char × TextField)
  | .patternQ p f => [(p, f)]
  | .constQ q => patternLeaves q
  | .unionQ qs => patternLeavesUnion qs
  | .boolQ cls => patternLeavesClauses cls

/-- Leaves of a list of operator trees. -/
def patternLeavesUnion : List TQuery → List (List Char × TextField)
  | [] => []
  | q :: qs => patternLeaves q ++ patternLeavesUnion qs

/-- Leaves of a clause list. -/
def patternLeavesClauses : List (Occur × TQuery) → List (List Char × TextField)
  | [] => []
  | c :: cls => patternLeaves c.2 ++ patternLeavesClauses cls

end

/-- The default-field target table stated by the spec: `Site` against
`UrlForSiteOperator`, `Url` against `Url`, `Domain` against `Domain`,
`Title` against `Title`, `Content` against `CleanBody`, `Description`
against the union of `Description` and `DmozDescription`, `Schema` against
`FlattenedSchemaOrgJson`, and `MicroformatTag` against `MicroformatTags`. -/
def specTargetFields : MatchLocation → List TextField
  | .site => [.urlForSiteOperator]
  | .url => [.url]
  | .domain => [.domain]
  | .title => [.title]
  | .content => [.cleanBody]
  | .description => [.description, .dmozDescription]
  | .schema => [.flattenedSchemaOrgJson]
  | .microformatTag => [.microformatTags]

/-- C6: for every optic matcher, the compiled query of the current compiler
contains pattern queries with the matcher's own pattern against exactly the
fields the spec's default-field table assigns to its location. -/
theorem matching_targets_spec_fields (m : Matching) :
    patternLeaves m.asTantivy =
      (specTargetFields m.location).map (fun f => (m.pattern, f)) := by
  cases m with
  | mk loc pat => cases loc <;> rfl

/-- C7 counterexample: on a rule whose `Matches` reduce to zero matchers the
two compiler versions do not differ: both prune the rule, returning no
operator at all rather than one of them producing a never-matching one. -/
theorem empty_rule_both_pruned :
    Rule.asSearchableRule ⟨[], Action.discard⟩ = none ∧
    Rule.asSearchableRule ⟨[[]], Action.discard⟩ = none ∧
    Rule.asSearchableRule ⟨[[]], Action.boost 1⟩ = none ∧
    RuleOld.asSearchableRule ⟨[], Action.discard⟩ = none ∧
    RuleOld.asSearchableRule ⟨[], Action.boost 1⟩ = none :=
  ⟨rfl, rfl, rfl, rfl, rfl⟩

/-- C7 (amended): the two compiler versions agree on a rule whose matches
reduce to zero matchers: the current compiler prunes a rule all of whose
`Matches` blocks are empty, and the older compiler prunes a rule with an
empty matcher list, for every action. -/
theorem empty_rule_pruned (a : Action) (blocks : List (List Matching))
    (hb : ∀ b ∈ blocks, b = []) :
    Rule.asSearchableRule ⟨blocks, a⟩ = none ∧
    RuleOld.asSearchableRule ⟨[], a⟩ = none := by
  constructor
  · induction blocks with
    | nil => rfl
    | cons b bs ih =>
        have hb0 : b = [] := hb b (List.mem_cons_self b bs)
        subst hb0
        have heq : Rule.asSearchableRule ⟨[] :: bs, a⟩ =
            Rule.asSearchableRule ⟨bs, a⟩ := rfl
        rw [heq]
        exact ih (fun x hx => hb x (List.mem_cons_of_mem _ hx))
  · rfl

theorem empty_rule_pruned_witness :
    Rule.asSearchableRule ⟨[[], []], Action.downrank 2⟩ = none ∧
    RuleOld.asSearchableRule ⟨[], Action.downrank 2⟩ = none := by
  exact empty_rule_pruned (Action.downrank 2) [[], []] (by intro b hb; simp at hb; tauto)

/-- The `MAX_SIMILAR_TERMS` cap of crates/core/src/query/mod.rs. -/
def MAX_SIMILAR_TERMS : Nat := 10

/-- Modelled from the spec: the parsed query terms (`parser::Term`; the
parser module is not under src/): simple terms, phrases and the field or
negation operators of the query language.  Only term equality matters to
the deduplication loop. -/
inductive Term where
  | simple (t : List Char)
  | phrase (ws : List (List Char))
  | siteOperator (pattern : List Char) (negated : Bool)
  | inurl (t : List Char)
  | intitle (t : List Char)
  | notTerm (t : List Char)
deriving DecidableEq, Repr

/-- The deduplication loop of `Query::parse`: walk the parsed terms keeping
a per-term counter (the `term_count` hash map, modelled as a function) and
push a term onto the output only while its counter is below
`MAX_SIMILAR_TERMS`; the counter is bumped either way. -/
def dedupLoop : List Term → (Term → Nat) → List Term
  | [], _ => []
  | t :: ts, cnt =>
      let rest := dedupLoop ts (fun x => if x = t then cnt x + 1 else cnt x)
      if cnt t < MAX_SIMILAR_TERMS then t :: rest else rest

/-- The term list `Query::parse` retains (all counters start at zero). -/
def dedupTerms (parsed : List Term) : List Term :=
  dedupLoop parsed (fun _ => 0)

theorem dedupLoop_count (t : Term) :
    ∀ (ts : List Term) (cnt : Term → Nat),
      (dedupLoop ts cnt).count t = min (ts.count t) (MAX_SIMILAR_TERMS - cnt t) := by
  intro ts
  induction ts with
  | nil => intro cnt; simp [dedupLoop]
  | cons s ts ih =>
      intro cnt
      by_cases hts : t = s
      · subst hts
        have h1 : (if t = t then cnt t + 1 else cnt t) = cnt t + 1 := if_pos rfl
        by_cases hlt : cnt t < MAX_SIMILAR_TERMS
        · have hd : dedupLoop (t :: ts) cnt =
              t :: dedupLoop ts (fun x => if x = t then cnt x + 1 else cnt x) := by
            simp only [dedupLoop, hlt, if_true]
          rw [hd, List.count_cons_self, ih, h1, List.count_cons_self]
          omega
        · have hd : dedupLoop (t :: ts) cnt =
              dedupLoop ts (fun x => if x = t then cnt x + 1 else cnt x) := by
            simp only [dedupLoop, hlt, if_false]
          rw [hd, ih, h1, List.count_cons_self]
          omega
      · have h1 : (if t = s then cnt t + 1 else cnt t) = cnt t := if_neg hts
        by_cases hlt : cnt s < MAX_SIMILAR_TERMS
        · have hd : dedupLoop (s :: ts) cnt =
              s :: dedupLoop ts (fun x => if x = s then cnt x + 1 else cnt x) := by
            simp only [dedupLoop, hlt, if_true]
          rw [hd, List.count_cons_of_ne hts, ih, h1, List.count_cons_of_ne hts]
        · have hd : dedupLoop (s :: ts) cnt =
              dedupLoop ts (fun x => if x = s then cnt x + 1 else cnt x) := by
            simp only [dedupLoop, hlt, if_false]
          rw [hd, ih, h1, List.count_cons_of_ne hts]

theorem dedupLoop_sublist :
    ∀ (ts : List Term) (cnt : Term → Nat), List.Sublist (dedupLoop ts cnt) ts := by
  intro ts
  induction ts with
  | nil => intro cnt; simp [dedupLoop]
  | cons s ts ih =>
      intro cnt
      by_cases hlt : cnt s < MAX_SIMILAR_TERMS
      · simp only [dedupLoop, hlt, if_true]
        exact List.Sublist.cons₂ s (ih _)
      · simp only [dedupLoop, hlt, if_false]
        exact List.Sublist.cons s (ih _)

theorem dedupLoop_take :
    ∀ (ts : List Term) (n : Nat) (cnt : Term → Nat),
      ∃ tail, dedupLoop ts cnt = dedupLoop (ts.take n) cnt ++ tail := by
  intro ts
  induction ts with
  | nil => intro n cnt; exact ⟨[], by simp [dedupLoop]⟩
  | cons s ts ih =>
      intro n cnt
      cases n with
      | zero => exact ⟨dedupLoop (s :: ts) cnt, by simp [dedupLoop]⟩
      | succ m =>
          obtain ⟨tail, htail⟩ := ih m (fun x => if x = s then cnt x + 1 else cnt x)
          by_cases hlt : cnt s < MAX_SIMILAR_TERMS
          · exact ⟨tail, by simp only [List.take_succ_cons, dedupLoop, hlt, if_true,
              htail, List.cons_append]⟩
          · exact ⟨tail, by simp only [List.take_succ_cons, dedupLoop, hlt, if_false, htail]⟩

/-- C2: `Query::parse` keeps, for each exact term, the first ten occurrences
(in input order) and drops every later one: the kept count is the minimum of
the input count and `MAX_SIMILAR_TERMS`; the output is an order-preserving
sublist of the input; and the output for any input prefix is a prefix of the
full output (so the kept occurrences are the earliest ones). -/
theorem parse_dedups_terms (l : List Term) (t : Term) :
    (dedupTerms l).count t = min (l.count t) MAX_SIMILAR_TERMS ∧
    (dedupTerms l).count t ≤ 10 ∧
    List.Sublist (dedupTerms l) l ∧
    (∀ n, ∃ tail, dedupTerms l = dedupTerms (l.take n) ++ tail) := by
  refine ⟨?_, ?_, dedupLoop_sublist l _, fun n => dedupLoop_take l n _⟩
  · rw [dedupTerms, dedupLoop_count, Nat.sub_zero]
  · rw [dedupTerms, dedupLoop_count, Nat.sub_zero]
    exact Nat.min_le_right (l.count t) MAX_SIMILAR_TERMS

/-- The document budget handed to `search_initial` by the collector:
total documents and number of segments. -/
structure MaxDocsConsidered where
  totalDocs : Nat
  segments : Nat
deriving DecidableEq, Repr

/-- The query handed to the tantivy searcher: either the compiled tree
itself or the tree wrapped in stract's `ShortCircuitQuery` with a
per-segment document limit. -/
inductive ExecQuery where
  | plain (q : TQuery)
  | shortCircuit (q : TQuery) (docsPerSegment : Nat)

/-- `InvertedIndex::search_initial` (crates/core/src/inverted_index.rs),
restricted to its observable decisions: which query tree is executed and
whether an exact count is returned alongside the pointers.  The corpus is a
list of documents; the `Count` collector counts the matching documents. -/
def searchInitial (corpus : List Doc) (q : TQuery) (countResults : Bool)
    (maxDocs : Option MaxDocsConsidered) : ExecQuery × Option Nat :=
  if !countResults then
    match maxDocs with
    | some limit => (.shortCircuit q (limit.totalDocs / limit.segments), none)
    | none => (.plain q, none)
  else
    (.plain q, some (corpus.countP (fun d => evalQ d q)))

/-- C3 counterexample: with a budget of 3 total documents over 2 segments
the code wraps the tree with per-segment limit 3 / 2 = 1 (floor division),
not ceil(3 / 2) = 2 as claimed. -/
theorem searchInitial_not_ceil :
    (searchInitial [] (TQuery.unionQ []) false (some ⟨3, 2⟩)).1 =
      ExecQuery.shortCircuit (TQuery.unionQ []) 1 ∧
    (3 + 2 - 1) / 2 = 2 ∧ (1 : Nat) ≠ 2 :=
  ⟨rfl, rfl, by decide⟩

/-- C3 (amended): when `count_results` is false and a budget exists, the
tree is wrapped in a short-circuit operator whose per-segment limit is the
floor (integer) division total_docs / num_segments, and no count is
produced; when `count_results` is true no wrapper is applied and the exact
number of matching documents is returned alongside the top pointers. -/
theorem searchInitial_spec (corpus : List Doc) (q : TQuery)
    (limit : MaxDocsConsidered) (maxDocs : Option MaxDocsConsidered)
    (hseg : 0 < limit.segments) :
    (searchInitial corpus q false (some limit) =
        (ExecQuery.shortCircuit q (limit.totalDocs / limit.segments), none) ∧
      (limit.totalDocs / limit.segments) * limit.segments ≤ limit.totalDocs ∧
      limit.totalDocs <
        ((limit.totalDocs / limit.segments) + 1) * limit.segments) ∧
    searchInitial corpus q false none = (ExecQuery.plain q, none) ∧
    searchInitial corpus q true maxDocs =
      (ExecQuery.plain q, some ((corpus.filter (fun d => evalQ d q)).length)) := by
  refine ⟨⟨rfl, ?_, ?_⟩, rfl, ?_⟩
  · exact Nat.div_mul_le_self _ _
  · have h1 := Nat.div_add_mod limit.totalDocs limit.segments
    have h2 := Nat.mod_lt limit.totalDocs hseg
    have h3 : (limit.totalDocs / limit.segments + 1) * limit.segments =
        limit.segments * (limit.totalDocs / limit.segments) + limit.segments := by
      ring
    omega
  · simp [searchInitial, List.countP_eq_length_filter]

theorem searchInitial_spec_witness :
    searchInitial [] (TQuery.unionQ []) false (some ⟨3, 2⟩) =
      (ExecQuery.shortCircuit (TQuery.unionQ []) 1, none) ∧
    searchInitial [] (TQuery.unionQ []) true none =
      (ExecQuery.plain (TQuery.unionQ []), some 0) := by
  have h := searchInitial_spec [] (TQuery.unionQ []) ⟨3, 2⟩ none (by decide)
  exact ⟨h.1.1, h.2.2⟩

/-- A tantivy segment as the merge code observes it: an identifier and its
document count (`SegmentMeta::num_docs`). -/
structure SegMeta where
  segId : Nat
  numDocs : Nat
deriving DecidableEq, Repr

/-- A merge bin (`SegmentMergeCandidate`): the accumulated document count
and the segments placed into the bin so far. -/
structure SegmentMergeCandidate where
  numDocs : Nat
  segments : List SegMeta
deriving DecidableEq, Repr

/-- Stable descending sort by `num_docs`, Rust's
`segments.sort_by_key(Reverse(num_docs))`; an insertion sort is stable for
the same key order, so it produces the same list. -/
def sortByDocsDesc (l : List SegMeta) : List SegMeta :=
  List.insertionSort (fun a b => b.numDocs ≤ a.numDocs) l

/-- First-minimum placement: the segment is pushed into the first bin whose
accumulated `num_docs` is minimal (Rust's `min_by` returns the first
minimum), and the bin's count grows by the segment's `num_docs`. -/
def addToFirstMin (s : SegMeta) :
    List SegmentMergeCandidate → List SegmentMergeCandidate
  | [] => []
  | b :: bs =>
      if bs.all (fun c => b.numDocs ≤ c.numDocs) then
        ⟨b.numDocs + s.numDocs, b.segments ++ [s]⟩ :: bs
      else
        b :: addToFirstMin s bs

/-- The filled merge bins of `merge_tantivy_segments`: `(k + 1) / 2` empty
bins, then every segment (largest first) goes to the currently smallest
bin. -/
def mergeCandidates (segments : List SegMeta) (k : Nat) :
    List SegmentMergeCandidate :=
  (sortByDocsDesc segments).foldl (fun bins s => addToFirstMin s bins)
    (List.replicate ((k + 1) / 2) ⟨0, []⟩)

/-- `merge_tantivy_segments` of crates/core/src/inverted_index.rs, reduced
to its observable effect: the groups of segments that get merged (each group
is passed to `writer.merge` and its segments' files are then removed).  With
at most `k` segments the function returns without merging; otherwise every
bin that is not empty is merged. -/
def mergeTantivySegments (segments : List SegMeta) (k : Nat) :
    List (List SegMeta) :=
  if segments.length ≤ k then []
  else
    ((mergeCandidates segments k).filter
      (fun merge => !merge.segments.isEmpty)).map (fun merge => merge.segments)

/-- The merge groups as the claim words them: identical to the code except
that the segments are partitioned into ⌈(k + 1) / 2⌉ bins (the ceiling,
written (k + 2) / 2). -/
def specClaimMergeGroups (segments : List SegMeta) (k : Nat) :
    List (List SegMeta) :=
  if segments.length ≤ k then []
  else
    (((sortByDocsDesc segments).foldl (fun bins s => addToFirstMin s bins)
        (List.replicate ((k + 2) / 2) ⟨0, []⟩)).filter
      (fun merge => !merge.segments.isEmpty)).map (fun merge => merge.segments)

theorem addToFirstMin_length (s : SegMeta) :
    ∀ bins, (addToFirstMin s bins).length = bins.length := by
  intro bins
  induction bins with
  | nil => rfl
  | cons b bs ih =>
      by_cases hc : bs.all (fun c => b.numDocs ≤ c.numDocs)
      · simp [addToFirstMin, hc]
      · simp [addToFirstMin, hc, ih]

theorem foldl_addToFirstMin_length (l : List SegMeta) :
    ∀ bins, (l.foldl (fun bins s => addToFirstMin s bins) bins).length =
      bins.length := by
  induction l with
  | nil => intro bins; rfl
  | cons s l ih =>
      intro bins
      rw [List.foldl_cons, ih, addToFirstMin_length]

/-- All segments currently held by a list of bins, in bin order. -/
def binsSegs (bins : List SegmentMergeCandidate) : List SegMeta :=
  bins.foldr (fun b acc => b.segments ++ acc) []

theorem binsSegs_cons (b : SegmentMergeCandidate)
    (bs : List SegmentMergeCandidate) :
    binsSegs (b :: bs) = b.segments ++ binsSegs bs := rfl

theorem addToFirstMin_perm (s : SegMeta) :
    ∀ bins, bins ≠ [] →
      List.Perm (binsSegs (addToFirstMin s bins)) (s :: binsSegs bins) := by
  intro bins
  induction bins with
  | nil => intro h; exact absurd rfl h
  | cons b bs ih =>
      intro _
      by_cases hc : bs.all (fun c => b.numDocs ≤ c.numDocs)
      · have hd : binsSegs (addToFirstMin s (b :: bs)) =
            (b.segments ++ [s]) ++ binsSegs bs := by
          simp only [addToFirstMin, hc, if_true, binsSegs_cons]
        rw [hd, List.append_assoc, List.singleton_append]
        exact List.perm_middle
      · have hbs : bs ≠ [] := by
          intro h; subst h; simp at hc
        have hd : binsSegs (addToFirstMin s (b :: bs)) =
            b.segments ++ binsSegs (addToFirstMin s bs) := by
          have h2 : addToFirstMin s (b :: bs) = b :: addToFirstMin s bs := by
            simp only [addToFirstMin]
            rw [if_neg hc]
          rw [h2, binsSegs_cons]
        rw [hd]
        exact (List.Perm.append_left b.segments (ih hbs)).trans List.perm_middle

theorem foldl_addToFirstMin_perm (l : List SegMeta) :
    ∀ bins, bins ≠ [] →
      List.Perm (binsSegs (l.foldl (fun bins s => addToFirstMin s bins) bins))
        (l ++ binsSegs bins) := by
  induction l with
  | nil => intro bins _; simp
  | cons s l ih =>
      intro bins hbins
      have hne : addToFirstMin s bins ≠ [] := by
        intro h
        have := addToFirstMin_length s bins
        rw [h] at this
        exact hbins (List.length_eq_zero.mp this.symm)
      have h1 := ih (addToFirstMin s bins) hne
      have h2 := List.Perm.append_left l (addToFirstMin_perm s bins hbins)
      exact (h1.trans h2).trans List.perm_middle

theorem binsSegs_replicate (n : Nat) :
    binsSegs (List.replicate n ⟨0, []⟩) = [] := by
  induction n with
  | zero => rfl
  | succ m ih =>
      rw [List.replicate_succ, binsSegs_cons, ih]
      rfl

theorem binsSegs_filter_nonempty (bins : List SegmentMergeCandidate) :
    binsSegs (bins.filter (fun merge => !merge.segments.isEmpty)) =
      binsSegs bins := by
  induction bins with
  | nil => rfl
  | cons b bs ih =>
      by_cases hseg : b.segments = []
      · have h1 : (b :: bs).filter (fun merge => !merge.segments.isEmpty) =
            bs.filter (fun merge => !merge.segments.isEmpty) := by
          simp [List.filter_cons, hseg]
        rw [h1, ih, binsSegs_cons, hseg, List.nil_append]
      · have h1 : (b :: bs).filter (fun merge => !merge.segments.isEmpty) =
            b :: bs.filter (fun merge => !merge.segments.isEmpty) := by
          simp [List.filter_cons, hseg]
        rw [h1, binsSegs_cons, ih, binsSegs_cons]

theorem binsSegs_eq_join_map (bins : List SegmentMergeCandidate) :
    ((bins.map (fun merge => merge.segments)).foldr (· ++ ·) []) =
      binsSegs bins := by
  induction bins with
  | nil => rfl
  | cons b bs ih => rw [List.map_cons, List.foldr_cons, ih, binsSegs_cons]

/-- C4 counterexample: for k = 2 and three segments the code builds
(2 + 1) / 2 = 1 bin and merges all three segments together, while the
claimed ⌈(2 + 1) / 2⌉ = 2 bins would split them into two groups; the two
disagree. -/
theorem merge_bins_not_ceil :
    mergeTantivySegments [⟨1, 5⟩, ⟨2, 3⟩, ⟨3, 2⟩] 2 =
      [[⟨1, 5⟩, ⟨2, 3⟩, ⟨3, 2⟩]] ∧
    specClaimMergeGroups [⟨1, 5⟩, ⟨2, 3⟩, ⟨3, 2⟩] 2 =
      [[⟨1, 5⟩], [⟨2, 3⟩, ⟨3, 2⟩]] ∧
    mergeTantivySegments [⟨1, 5⟩, ⟨2, 3⟩, ⟨3, 2⟩] 2 ≠
      specClaimMergeGroups [⟨1, 5⟩, ⟨2, 3⟩, ⟨3, 2⟩] 2 :=
  ⟨by decide, by decide, by decide⟩

/-- C4 (amended): with more than `k` segments (k > 0),
`merge_tantivy_segments` partitions the segments into exactly ⌊(k + 1) / 2⌋
bins (the floor, equal to ⌈k / 2⌉) by sorting descending on `num_docs` and
placing each segment into the currently smallest bin, merging every
non-empty bin; together the merged groups hold exactly the input segments.
With at most `k` segments it returns without merging. -/
theorem merge_into_max_segments_spec (segments : List SegMeta) (k : Nat)
    (hk : 0 < k) :
    (segments.length ≤ k → mergeTantivySegments segments k = []) ∧
    (k < segments.length →
      (mergeCandidates segments k).length = (k + 1) / 2 ∧
      mergeTantivySegments segments k =
        ((mergeCandidates segments k).filter
          (fun merge => !merge.segments.isEmpty)).map
            (fun merge => merge.segments) ∧
      List.Perm ((mergeTantivySegments segments k).foldr (· ++ ·) [])
        segments) := by
  constructor
  · intro hle
    simp [mergeTantivySegments, hle]
  · intro hgt
    have hnotle : ¬ segments.length ≤ k := by omega
    refine ⟨?_, ?_, ?_⟩
    · rw [mergeCandidates, foldl_addToFirstMin_length, List.length_replicate]
    · simp [mergeTantivySegments, hnotle]
    · have hrep : List.replicate ((k + 1) / 2) (⟨0, []⟩ : SegmentMergeCandidate) ≠ [] := by
        have : 0 < (k + 1) / 2 := by omega
        intro h
        rw [← List.length_eq_zero, List.length_replicate] at h
        omega
      have hperm := foldl_addToFirstMin_perm (sortByDocsDesc segments) _ hrep
      rw [binsSegs_replicate, List.append_nil] at hperm
      have hsort : List.Perm (sortByDocsDesc segments) segments :=
        List.perm_insertionSort _ _
      simp only [mergeTantivySegments, if_neg hnotle]
      rw [binsSegs_eq_join_map, binsSegs_filter_nonempty]
      exact (hperm.trans hsort)

theorem merge_into_max_segments_spec_witness :
    (mergeCandidates [⟨1, 5⟩, ⟨2, 3⟩, ⟨3, 2⟩] 2).length = (2 + 1) / 2 ∧
    List.Perm
      ((mergeTantivySegments [⟨1, 5⟩, ⟨2, 3⟩, ⟨3, 2⟩] 2).foldr (· ++ ·) [])
      [⟨1, 5⟩, ⟨2, 3⟩, ⟨3, 2⟩] := by
  have h := merge_into_max_segments_spec [⟨1, 5⟩, ⟨2, 3⟩, ⟨3, 2⟩] 2 (by decide)
  exact ⟨(h.2 (by decide)).1, (h.2 (by decide)).2.2⟩

/-- C5 counterexample: for k = 3 and four segments the packing produces the
bins [[⟨1,10⟩], [⟨2,1⟩, ⟨3,1⟩, ⟨4,1⟩]]; the first bin holds exactly one
segment and is nevertheless merged — its group appears in the merge list, so
`writer.merge` is invoked on it and its files removed — contradicting the
claim that single-segment bins are skipped. -/
theorem singleton_bin_merged :
    [⟨1, 10⟩] ∈ mergeTantivySegments [⟨1, 10⟩, ⟨2, 1⟩, ⟨3, 1⟩, ⟨4, 1⟩] 3 ∧
    mergeTantivySegments [⟨1, 10⟩, ⟨2, 1⟩, ⟨3, 1⟩, ⟨4, 1⟩] 3 =
      [[⟨1, 10⟩], [⟨2, 1⟩, ⟨3, 1⟩, ⟨4, 1⟩]] :=
  ⟨by decide, by decide⟩

/-- C5 (amended): `merge_tantivy_segments` skips only empty bins: every bin
that received at least one segment — including a bin containing exactly one
segment — has its group merged into a new segment. -/
theorem nonempty_bins_merged (segments : List SegMeta) (k : Nat)
    (hlen : k < segments.length) :
    ∀ b ∈ mergeCandidates segments k, b.segments ≠ [] →
      b.segments ∈ mergeTantivySegments segments k := by
  intro b hb hne
  have hnotle : ¬ segments.length ≤ k := by omega
  simp only [mergeTantivySegments, if_neg hnotle]
  refine List.mem_map.mpr ⟨b, List.mem_filter.mpr ⟨hb, ?_⟩, rfl⟩
  simp [List.isEmpty_iff, hne]

theorem nonempty_bins_merged_witness :
    [⟨(1 : Nat), 10⟩] ∈
      mergeTantivySegments [⟨1, 10⟩, ⟨2, 1⟩, ⟨3, 1⟩, ⟨4, 1⟩] 3 := by
  have h := nonempty_bins_merged [⟨1, 10⟩, ⟨2, 1⟩, ⟨3, 1⟩, ⟨4, 1⟩] 3 (by decide)
  exact h ⟨10, [⟨1, 10⟩]⟩ (by decide) (by decide)

/-- Word splitting of Rust's `str::split_whitespace`, carrying the current
(reversed) partial word: maximal runs of non-whitespace characters, empty
runs dropped. -/
def splitWsAux : List Char → List Char → List (List Char)
  | [], [] => []
  | [], cur => [cur.reverse]
  | c :: cs, cur =>
      if c.isWhitespace then
        match cur with
        | [] => splitWsAux cs []
        | _ => cur.reverse :: splitWsAux cs []
      else splitWsAux cs (c :: cur)

/-- The whitespace-separated words of a character list. -/
def splitWs (s : List Char) : List (List Char) :=
  splitWsAux s []

/-- Space-joining of a word list (itertools `join(" ")`). -/
def joinWs : List (List Char) → List Char
  | [] => []
  | [w] => w
  | w :: ws => w ++ ' ' :: joinWs ws

theorem splitWsAux_cons_nonws (c : Char) (cs cur : List Char)
    (hc : c.isWhitespace = false) :
    splitWsAux (c :: cs) cur = splitWsAux cs (c :: cur) := by
  simp [splitWsAux, hc]

theorem splitWsAux_cons_ws (c : Char) (cs : List Char)
    (hc : c.isWhitespace = true) :
    splitWsAux (c :: cs) [] = splitWsAux cs [] ∧
    ∀ x xs, splitWsAux (c :: cs) (x :: xs) =
      (x :: xs).reverse :: splitWsAux cs [] := by
  constructor
  · simp [splitWsAux, hc]
  · intro x xs; simp [splitWsAux, hc]

theorem splitWsAux_append (w : List Char)
    (hw : ∀ c ∈ w, c.isWhitespace = false) :
    ∀ (s cur : List Char),
      splitWsAux (w ++ s) cur = splitWsAux s (w.reverse ++ cur) := by
  induction w with
  | nil => intro s cur; simp
  | cons c w ih =>
      intro s cur
      have hc : c.isWhitespace = false := hw c (List.mem_cons_self c w)
      rw [List.cons_append, splitWsAux_cons_nonws c _ _ hc,
        ih (fun x hx => hw x (List.mem_cons_of_mem _ hx))]
      rw [List.reverse_cons, List.append_assoc, List.singleton_append]

theorem splitWsAux_words (s : List Char) :
    ∀ cur, (∀ c ∈ cur, c.isWhitespace = false) →
      ∀ w ∈ splitWsAux s cur, w ≠ [] ∧ ∀ c ∈ w, c.isWhitespace = false := by
  induction s with
  | nil =>
      intro cur hcur w hw
      cases cur with
      | nil => cases hw
      | cons x xs =>
          have hw2 : w = (x :: xs).reverse := by
            simpa [splitWsAux] using hw
          subst hw2
          constructor
          · simp
          · intro c hc
            exact hcur c (List.mem_reverse.mp hc)
  | cons c cs ih =>
      intro cur hcur w hw
      by_cases hc : c.isWhitespace = true
      · cases cur with
        | nil =>
            rw [(splitWsAux_cons_ws c cs hc).1] at hw
            exact ih [] (by intro a ha; cases ha) w hw
        | cons x xs =>
            rw [(splitWsAux_cons_ws c cs hc).2 x xs] at hw
            rcases List.mem_cons.mp hw with h1 | h2
            · subst h1
              constructor
              · simp
              · intro a ha
                exact hcur a (List.mem_reverse.mp ha)
            · exact ih [] (by intro a ha; cases ha) w h2
      · have hc2 : c.isWhitespace = false := by
          cases h : c.isWhitespace
          · rfl
          · exact absurd h hc
        rw [splitWsAux_cons_nonws c cs cur hc2] at hw
        refine ih (c :: cur) ?_ w hw
        intro a ha
        rcases List.mem_cons.mp ha with h1 | h2
        · subst h1; exact hc2
        · exact hcur a h2

theorem splitWs_words (s : List Char) :
    ∀ w ∈ splitWs s, w ≠ [] ∧ ∀ c ∈ w, c.isWhitespace = false :=
  splitWsAux_words s [] (by intro a ha; cases ha)

theorem splitWs_joinWs (ws : List (List Char))
    (h : ∀ w ∈ ws, w ≠ [] ∧ ∀ c ∈ w, c.isWhitespace = false) :
    splitWs (joinWs ws) = ws := by
  induction ws with
  | nil => rfl
  | cons w ws ih =>
      obtain ⟨hw, hwc⟩ := h w (List.mem_cons_self w ws)
      cases ws with
      | nil =>
          show splitWs (joinWs [w]) = [w]
          have hj : joinWs [w] = w := rfl
          rw [hj, splitWs, show w = w ++ [] from (List.append_nil w).symm,
            splitWsAux_append w hwc [] []]
          cases hrev : w.reverse with
          | nil =>
              exact absurd (by simpa using congrArg List.reverse hrev) hw
          | cons x xs =>
              rw [List.append_nil, List.append_nil]
              show [(x :: xs).reverse] = [w]
              rw [← hrev, List.reverse_reverse]
      | cons w2 ws2 =>
          have hj : joinWs (w :: w2 :: ws2) = w ++ ' ' :: joinWs (w2 :: ws2) :=
            rfl
          rw [splitWs, hj, splitWsAux_append w hwc _ [], List.append_nil]
          cases hrev : w.reverse with
          | nil =>
              exact absurd (by simpa using congrArg List.reverse hrev) hw
          | cons x xs =>
              rw [(splitWsAux_cons_ws ' ' _ (by decide)).2 x xs, ← hrev,
                List.reverse_reverse]
              have ihr := ih (fun u hu => h u (List.mem_cons_of_mem _ hu))
              rw [splitWs] at ihr
              rw [ihr]

/-- The snippet configuration fields the empty-query snippet path reads,
with the defaults of crates/core/src/config/defaults.rs. -/
structure SnippetConfig where
  emptyQuerySnippetWords : Nat
  minDescriptionWords : Nat
  minBodyLength : Nat
  minBodyLengthHomepage : Nat
deriving DecidableEq, Repr

/-- The `Snippet` default constants: 50 empty-query snippet words, 10
minimum description words, minimum body lengths 256 and 1024. -/
def SnippetConfig.default : SnippetConfig := ⟨50, 10, 256, 1024⟩

/-- The empty-query snippet selection inside `retrieve_websites`
(crates/core/src/inverted_index.rs): take the first
`empty_query_snippet_words` whitespace-separated words of the description,
space-join and recount them, and fall back to the body prefix when the
description is missing or the prefix has fewer than
`min_description_words` words. -/
def emptyQuerySnippet (cfg : SnippetConfig) (description : Option (List Char))
    (body : List Char) : List Char :=
  match description with
  | some d =>
      let snip := joinWs ((splitWs d).take cfg.emptyQuerySnippetWords)
      if (splitWs snip).length < cfg.minDescriptionWords then
        joinWs ((splitWs body).take cfg.emptyQuerySnippetWords)
      else snip
  | none => joinWs ((splitWs body).take cfg.emptyQuerySnippetWords)

theorem splitWs_joinWs_take (d : List Char) (n : Nat) :
    splitWs (joinWs ((splitWs d).take n)) = (splitWs d).take n := by
  refine splitWs_joinWs _ ?_
  intro w hw
  exact splitWs_words d w (List.mem_of_mem_take hw)

/-- C8: for a query with no simple terms the snippet is the space-join of
the first `empty_query_snippet_words = 50` whitespace-separated words of the
description; if the document has no description, or that prefix holds fewer
than `min_description_words = 10` words, the snippet is instead the first 50
words of the body. -/
theorem empty_query_snippet_spec (d body : List Char) :
    (10 ≤ (splitWs d).length →
      emptyQuerySnippet SnippetConfig.default (some d) body =
        joinWs ((splitWs d).take 50)) ∧
    ((splitWs d).length < 10 →
      emptyQuerySnippet SnippetConfig.default (some d) body =
        joinWs ((splitWs body).take 50)) ∧
    emptyQuerySnippet SnippetConfig.default none body =
      joinWs ((splitWs body).take 50) := by
  have hlen : (splitWs (joinWs ((splitWs d).take 50))).length =
      min 50 (splitWs d).length := by
    rw [splitWs_joinWs_take, List.length_take]
  refine ⟨?_, ?_, rfl⟩
  · intro h10
    have hcond : ¬ ((splitWs (joinWs ((splitWs d).take 50))).length < 10) := by
      rw [hlen]; omega
    simp only [emptyQuerySnippet, SnippetConfig.default]
    rw [if_neg hcond]
  · intro hlt
    have hcond : (splitWs (joinWs ((splitWs d).take 50))).length < 10 := by
      rw [hlen]; omega
    simp only [emptyQuerySnippet, SnippetConfig.default]
    rw [if_pos hcond]

theorem empty_query_snippet_spec_witness :
    emptyQuerySnippet SnippetConfig.default
        (some ['a', ' ', 'b', ' ', 'c', ' ', 'd', ' ', 'e', ' ', 'f', ' ',
               'g', ' ', 'h', ' ', 'i', ' ', 'j'])
        ['x', ' ', 'y'] =
      joinWs ((splitWs ['a', ' ', 'b', ' ', 'c', ' ', 'd', ' ', 'e', ' ',
        'f', ' ', 'g', ' ', 'h', ' ', 'i', ' ', 'j']).take 50) ∧
    emptyQuerySnippet SnippetConfig.default (some ['a', ' ', 'b'])
        ['x', ' ', 'y'] =
      joinWs ((splitWs ['x', ' ', 'y']).take 50) := by
  exact ⟨(empty_query_snippet_spec _ _).1 (by decide),
    (empty_query_snippet_spec _ _).2.1 (by decide)⟩

/-- A bound of a tantivy `RangeQuery` (`std::ops::Bound`). -/
inductive RangeBound where
  | unbounded
  | included (t : Int)
  | excluded (t : Int)
deriving DecidableEq, Repr

/-- The date-range delete query registered by `InvertedIndex::delete`:
a field name together with a lower and an upper bound. -/
structure DeleteRange where
  field : TextField
  lower : RangeBound
  upper : RangeBound
deriving DecidableEq, Repr

/-- `InvertedIndex::delete_all_before`: a range query on the
`InsertionTimestamp` field, unbounded below and excluding `timestamp`
above. -/
def deleteAllBefore (timestamp : Int) : DeleteRange :=
  ⟨TextField.insertionTimestamp, RangeBound.unbounded,
    RangeBound.excluded timestamp⟩

/-- Lower-bound containment under the standard `Bound` semantics. -/
def RangeBound.okLower : RangeBound → Int → Bool
  | .unbounded, _ => true
  | .included a, x => decide (a ≤ x)
  | .excluded a, x => decide (a < x)

/-- Upper-bound containment under the standard `Bound` semantics. -/
def RangeBound.okUpper : RangeBound → Int → Bool
  | .unbounded, _ => true
  | .included a, x => decide (x ≤ a)
  | .excluded a, x => decide (x < a)

/-- A value lies in the range when both bounds admit it. -/
def DeleteRange.memRange (r : DeleteRange) (x : Int) : Bool :=
  r.lower.okLower x && r.upper.okUpper x

/-- C10: `delete_all_before t` registers a deletion on `InsertionTimestamp`
matching exactly the documents whose timestamp is strictly less than `t`;
in particular a document inserted exactly at `t` is not deleted. -/
theorem deleteAllBefore_strict (t x : Int) :
    (deleteAllBefore t).field = TextField.insertionTimestamp ∧
    ((deleteAllBefore t).memRange x = true ↔ x < t) ∧
    (deleteAllBefore t).memRange t = false := by
  refine ⟨rfl, ?_, ?_⟩
  · simp [deleteAllBefore, DeleteRange.memRange, RangeBound.okLower,
      RangeBound.okUpper]
  · simp [deleteAllBefore, DeleteRange.memRange, RangeBound.okLower,
      RangeBound.okUpper]

/-- A stored-document address: segment ordinal and local document id. -/
structure DocAddress where
  segment : Nat
  docId : Nat
deriving DecidableEq, Repr

/-- A pointer produced by collection; retrieval reads only the address. -/
structure WebsitePointer where
  address : DocAddress
deriving DecidableEq, Repr

/-- The fields of a retrieved page that retrieval and the snippet pass
touch. -/
structure RetrievedWebpage where
  url : List Char
  body : List Char
  description : Option (List Char)
  snippet : List Char
deriving DecidableEq, Repr

/-- The snippet pass of `retrieve_websites` for one page: a page whose URL
fails to parse is left untouched; with no simple terms the empty-query
snippet is installed; otherwise `snippet::generate` (abstracted by `gen`,
it lives in the snippet module) runs on the description when the body is
below the (homepage-dependent) length threshold and the description has
enough words, and on the body otherwise. -/
def addSnippet (urlOk : List Char → Bool) (simpleTermsEmpty : Bool)
    (isHomepage : List Char → Bool) (gen : List Char → List Char)
    (cfg : SnippetConfig) (page : RetrievedWebpage) : RetrievedWebpage :=
  if urlOk page.url then
    if simpleTermsEmpty then
      { page with snippet := emptyQuerySnippet cfg page.description page.body }
    else
      let minBodyLen :=
        if isHomepage page.url then cfg.minBodyLengthHomepage
        else cfg.minBodyLength
      if (splitWs page.body).length < minBodyLen &&
          cfg.minDescriptionWords ≤ (splitWs (page.description.getD [])).length
      then
        { page with snippet := gen (page.description.getD []) }
      else
        { page with snippet := gen page.body }
  else page

/-- `InvertedIndex::retrieve_websites`: each pointer's stored document is
fetched (`retrieve_doc`, abstracted as `store`), failed retrievals are
dropped by `filter_map(res.ok())`, the snippet pass rewrites each surviving
page, and the function returns `Ok`. -/
def retrieveWebsites (store : DocAddress → Except (List Char) RetrievedWebpage)
    (urlOk : List Char → Bool) (simpleTermsEmpty : Bool)
    (isHomepage : List Char → Bool) (gen : List Char → List Char)
    (cfg : SnippetConfig) (websites : List WebsitePointer) :
    Except (List Char) (List RetrievedWebpage) :=
  let webpages := (websites.map (fun w => store w.address)).filterMap
    (fun res => res.toOption)
  Except.ok (webpages.map (addSnippet urlOk simpleTermsEmpty isHomepage gen cfg))

theorem addSnippet_proj (urlOk : List Char → Bool) (simpleTermsEmpty : Bool)
    (isHomepage : List Char → Bool) (gen : List Char → List Char)
    (cfg : SnippetConfig) (page : RetrievedWebpage) :
    ((addSnippet urlOk simpleTermsEmpty isHomepage gen cfg page).url,
     (addSnippet urlOk simpleTermsEmpty isHomepage gen cfg page).body,
     (addSnippet urlOk simpleTermsEmpty isHomepage gen cfg page).description) =
      (page.url, page.body, page.description) := by
  unfold addSnippet
  split
  · split
    · rfl
    · split
      · dsimp only
        split
        · rfl
        · rfl
      · dsimp only
        split
        · rfl
        · rfl
  · rfl

/-- C9: result materialisation never fails because a pointer refers to a
deleted or merged-out document: `retrieve_websites` returns `Ok`, every
pointer whose stored-document retrieval errors is silently omitted, and the
successfully retrieved pages come back in input pointer order with their
stored fields untouched (only the snippet is rewritten). -/
theorem retrieve_websites_total
    (store : DocAddress → Except (List Char) RetrievedWebpage)
    (urlOk : List Char → Bool) (simpleTermsEmpty : Bool)
    (isHomepage : List Char → Bool) (gen : List Char → List Char)
    (cfg : SnippetConfig) (websites : List WebsitePointer) :
    ∃ pages,
      retrieveWebsites store urlOk simpleTermsEmpty isHomepage gen cfg
        websites = Except.ok pages ∧
      pages.map (fun p => (p.url, p.body, p.description)) =
        (websites.filterMap (fun w => (store w.address).toOption)).map
          (fun p => (p.url, p.body, p.description)) ∧
      pages.length =
        (websites.filterMap (fun w => (store w.address).toOption)).length := by
  refine ⟨_, rfl, ?_, ?_⟩
  · rw [List.map_map, List.filterMap_map]
    exact List.map_congr_left (fun p _ =>
      addSnippet_proj urlOk simpleTermsEmpty isHomepage gen cfg p)
  · rw [List.length_map, List.filterMap_map]
    rfl

end Stract
